import Mathlib

/-!
Verification development for the KyomeiJinja Japanese keyword extractor
(`src/main.py`).  The Python source is embedded shallowly: strings are
`List Char`, the regular-expression substitutions of `clean_text` are
embedded as explicit left-to-right scanners with the same match semantics,
and the heuristic classifiers (`is_likely_noun`, `is_likely_verb`,
`is_likely_adjective`) are translated clause by clause.
-/

/-- A word / piece of text, modelled as the list of its Unicode code points
(Python 3 `str` indexing and `len` are code-point based). -/
abbrev Word := List Char

/-- Shorthand turning a string literal into its code-point list. -/
def str (s : String) : Word := s.data

/-- Python regex `\s` over `str`: the Unicode whitespace set used by `re`
(ASCII whitespace, the C1 separators, NEL, NBSP, and the Unicode space
separators, including the ideographic space U+3000). -/
def isPySpace (c : Char) : Bool :=
  let n := c.toNat
  (0x9 ≤ n && n ≤ 0xD) || (0x1C ≤ n && n ≤ 0x1F) || n == 0x20 || n == 0x85 ||
  n == 0xA0 || n == 0x1680 || (0x2000 ≤ n && n ≤ 0x200A) || n == 0x2028 ||
  n == 0x2029 || n == 0x202F || n == 0x205F || n == 0x3000

/-- Character class `[ぁ-ん]` (main.py `get_char_type`). -/
def isHiragana (c : Char) : Bool := 0x3041 ≤ c.toNat && c.toNat ≤ 0x3093

/-- Character class `[ァ-ン]` (main.py `get_char_type`). -/
def isKatakana (c : Char) : Bool := 0x30A1 ≤ c.toNat && c.toNat ≤ 0x30F3

/-- Character class `[一-龥]` (main.py `get_char_type`). -/
def isKanji (c : Char) : Bool := 0x4E00 ≤ c.toNat && c.toNat ≤ 0x9FA5

/-- Character class `[A-Za-z]`. -/
def isLatin (c : Char) : Bool :=
  (0x41 ≤ c.toNat && c.toNat ≤ 0x5A) || (0x61 ≤ c.toNat && c.toNat ≤ 0x7A)

/-- Character class `[0-9０-９]` (ASCII and fullwidth digits). -/
def isDigitChar (c : Char) : Bool :=
  (0x30 ≤ c.toNat && c.toNat ≤ 0x39) || (0xFF10 ≤ c.toNat && c.toNat ≤ 0xFF19)

/-- Character class `[A-Za-z0-9_ぁ-んァ-ン一-龥]` of the mention/hashtag
regex in `clean_text`. -/
def isMentionChar (c : Char) : Bool :=
  isLatin c || (0x30 ≤ c.toNat && c.toNat ≤ 0x39) || c == '_' ||
  isHiragana c || isKatakana c || isKanji c

/-!  Left-to-right, non-overlapping deletion of regex matches, the semantics
of Python `re.sub(pattern, '', text)` for the three deletion patterns of
`clean_text`.  A matcher `m c cs` reports `some n` when a match starts at
the character `c` (with the rest of the text `cs`) and consumes `n`
further characters of `cs`; matches are leftmost and greedy, as in `re`.
The scanner is fuelled to stay structurally recursive; fuel equal to the
text length is always sufficient because every match consumes at least the
one character `c`. -/

/-- Fuelled scanner deleting every leftmost non-overlapping match of `m`. -/
def subGo (m : Char → List Char → Option Nat) : Nat → List Char → List Char
  | _, [] => []
  | 0, l => l
  | fuel + 1, c :: cs =>
    match m c cs with
    | some n => subGo m fuel (cs.drop n)
    | none => c :: subGo m fuel cs

/-- `re.sub(m, '', s)` for a deletion matcher `m`. -/
def subDel (m : Char → List Char → Option Nat) (s : Word) : Word :=
  subGo m s.length s

/-- Matcher for `https?://\S+` (URL removal in `clean_text`): literal
`http`, optional `s`, `://`, then a nonempty greedy run of non-whitespace. -/
def mURL (c : Char) (cs : List Char) : Option Nat :=
  if c == 'h' then
    match cs with
    | 't' :: 't' :: 'p' :: 's' :: ':' :: '/' :: '/' :: rest =>
      let tail := rest.takeWhile (fun d => !isPySpace d)
      if tail.isEmpty then none else some (7 + tail.length)
    | 't' :: 't' :: 'p' :: ':' :: '/' :: '/' :: rest =>
      let tail := rest.takeWhile (fun d => !isPySpace d)
      if tail.isEmpty then none else some (6 + tail.length)
    | _ => none
  else none

/-- Matcher for `[#＃@][A-Za-z0-9_ぁ-んァ-ン一-龥]+` (hashtag/mention
removal in `clean_text`). -/
def mMention (c : Char) (cs : List Char) : Option Nat :=
  if c == '#' || c == '＃' || c == '@' then
    let t := cs.takeWhile isMentionChar
    if t.isEmpty then none else some t.length
  else none

/-- Matcher for `RT\s+` (retweet-marker removal in `clean_text`). -/
def mRT (c : Char) (cs : List Char) : Option Nat :=
  if c == 'R' then
    match cs with
    | 'T' :: rest =>
      let sp := rest.takeWhile isPySpace
      if sp.isEmpty then none else some (1 + sp.length)
    | _ => none
  else none

/-- `re.sub(r'\s+', ' ', text)`: every maximal whitespace run becomes a
single ASCII space.  The Boolean argument records whether the previous
character was whitespace (in which case further whitespace is dropped). -/
def cwAux : Bool → List Char → List Char
  | _, [] => []
  | prev, c :: cs =>
    if isPySpace c then
      (if prev then cwAux true cs else ' ' :: cwAux true cs)
    else c :: cwAux false cs

/-- Whitespace-run collapsing, entry point of `cwAux`. -/
def collapseWs (l : List Char) : List Char := cwAux false l

/-- Python `str.strip()`: drop whitespace from both ends. -/
def stripPy (l : List Char) : List Char :=
  ((l.dropWhile isPySpace).reverse.dropWhile isPySpace).reverse

/-- `KeywordExtractor.clean_text` (main.py lines 122-133): delete URLs,
then hashtags/mentions, then `RT` + whitespace, then normalize whitespace
and strip. -/
def clean_text (s : Word) : Word :=
  stripPy (collapseWs (subDel mRT (subDel mMention (subDel mURL s))))

/-- The character classes of `get_char_type` in `tokenize_japanese`. -/
inductive CharType where
  | hiragana | katakana | kanji | latin | number | space | other
deriving DecidableEq

/-- `get_char_type` (main.py lines 139-146), with its check order. -/
def get_char_type (c : Char) : CharType :=
  if isHiragana c then .hiragana
  else if isKatakana c then .katakana
  else if isKanji c then .kanji
  else if isLatin c then .latin
  else if isDigitChar c then .number
  else if isPySpace c then .space
  else .other

/-- The accumulation loop of `tokenize_japanese` (main.py lines 148-170):
`tok` is `current_token`, `ty` is `current_type`. -/
def tokGo : List Char → Word → CharType → List Word
  | [], tok, ty => if tok ≠ [] ∧ ty ≠ CharType.space then [tok] else []
  | c :: cs, tok, ty =>
    let ct := get_char_type c
    if ct ≠ ty ∧ tok ≠ [] then
      (if ty ≠ CharType.space then [tok] else []) ++
        tokGo cs (if ct ≠ CharType.space then [c] else []) ct
    else
      tokGo cs (if ct ≠ CharType.space then tok ++ [c] else tok) ct

/-- `KeywordExtractor.tokenize_japanese`: maximal same-class non-whitespace
runs.  The initial `current_type` is immaterial because the initial token is
empty; `.space` mirrors the Python empty-string start state. -/
def tokenize_japanese (s : Word) : List Word := tokGo s [] CharType.space

/-- `STOP_WORDS` (main.py lines 55-100), verbatim including duplicates. -/
def STOP_WORDS : List Word :=
  (["これ", "それ", "あれ", "この", "その", "あの", "ここ", "そこ", "あそこ",
    "こちら", "どこ", "だれ", "なに", "なん", "なんの", "いつ", "どうして",
    "が", "の", "を", "に", "へ", "と", "から", "より", "で", "や", "は",
    "ので", "のに", "ば", "て", "って", "でも", "し", "だけ", "だの",
    "けど", "けれど", "けれども", "だろう", "でしょう", "ながら",
    "です", "ます", "でした", "ました", "だった", "ぬ", "た", "う", "よう",
    "ない", "せる", "させる", "れる", "られる", "しまう", "ください",
    "しかし", "だが", "ただし", "ただ", "なので", "したがって",
    "らしい", "みたい", "そう", "よう", "べき", "はず", "なければ",
    "いる", "ある", "する", "なる", "くる", "いく", "できる",
    "てる", "たい", "たら", "なら", "れる", "られ", "せる", "させ",
    "ない", "いい", "よい", "すごい", "ほしい",
    "もう", "まだ", "また", "さらに", "なお", "とても", "かなり",
    "すごく", "とっても", "かなり", "ちょっと", "あまり", "もっと",
    "その上", "それから", "それで", "それでは", "したがって",
    "そのため", "だから", "つまり", "すなわち", "たとえば",
    "でも", "しかし", "だけど", "ところで", "さて", "ならびに",
    "および", "または", "あるいは", "さらに", "ただし", "ただ",
    "じゃ", "しま", "せん", "わな", "すね", "かな", "よね", "しみ",
    "うん", "えっ", "はて", "あの", "はい", "いや", "おー", "おお", "おっ",
    "わ", "よ", "ね", "な", "のよ", "のね", "わよ", "わね", "かしら",
    "こと", "もの", "ため", "ところ", "やつ", "わけ", "とき", "ほう",
    "さ", "み", "げ", "まま", "ごと", "がち", "っぽい", "がたい",
    "RT", "http", "https", "co", "jp", "com", "www",
    "ツイート", "リツイート", "フォロー", "リプ", "いいね"] : List String).map String.data

/-- `NOUN_SUFFIXES` (main.py lines 103-106). -/
def NOUN_SUFFIXES : List Word :=
  (["性", "化", "者", "手", "師", "家", "員", "長", "様", "氏",
    "産", "人", "的", "界", "場", "市", "県", "都", "府", "党"] : List String).map String.data

/-- `word.endswith(suffix)` over code-point lists. -/
def endsw (suf w : Word) : Bool := suf.reverse.isPrefixOf w.reverse

/-- Literal members of `SUSPICIOUS_PATTERNS` (main.py lines 109-112); each
is used with `re.match`, i.e. as a prefix test. -/
def SUSPICIOUS_LITS : List Word :=
  (["しみです", "うんです", "かなです", "よねです", "じゃです", "えっです"] : List String).map String.data

/-- Character class `[ぁ-んー]` of the generic suspicious patterns. -/
def isHiraBar (c : Char) : Bool := isHiragana c || c == 'ー'

/-- `re.match(r'[ぁ-んー]{1,2}' + copula, word)`: the word starts with one
or two `[ぁ-んー]` characters immediately followed by `copula`. -/
def hira12 (copula : Word) (w : Word) : Bool :=
  match w with
  | c0 :: rest =>
    isHiraBar c0 && (copula.isPrefixOf rest ||
      (match rest with
       | c1 :: rest2 => isHiraBar c1 && copula.isPrefixOf rest2
       | [] => false))
  | [] => false

/-- The `SUSPICIOUS_PATTERNS` loop in `is_likely_noun`: some pattern
matches at the start of the word. -/
def suspicious (w : Word) : Bool :=
  SUSPICIOUS_LITS.any (fun p => p.isPrefixOf w) ||
  hira12 (str "です") w || hira12 (str "ます") w

/-- Head-character test `re.match(r'[一-龥]', word)`. -/
def firstIsKanji (w : Word) : Bool :=
  match w with
  | c :: _ => isKanji c
  | [] => false

/-- `KeywordExtractor.is_likely_noun` (main.py lines 172-206), clause by
clause in source order. -/
def is_likely_noun (w : Word) : Bool :=
  if w ∈ STOP_WORDS then false
  else if w.length == 1 then firstIsKanji w
  else if suspicious w then false
  else if NOUN_SUFFIXES.any (fun suf => endsw suf w) then true
  else if w.any isKanji then true
  else if w.all isKatakana && !w.isEmpty then true
  else if w.any isKatakana && w.any isKanji then true
  else decide (2 ≤ w.length)

/-- `verb_endings` (main.py lines 220-226), verbatim including duplicates. -/
def VERB_ENDINGS : List Word :=
  (["する", "せる", "させる",
    "れる", "られる", "しまう",
    "なる", "たい", "べき", "ます",
    "ました", "ません", "ました",
    "ている", "ていた", "ていない"] : List String).map String.data

/-- `conjugation_endings` (main.py lines 229-233), verbatim. -/
def CONJ_ENDINGS : List Word :=
  (["う", "く", "ぐ", "す", "つ", "ぬ", "ぶ", "む", "る",
    "った", "いた", "いだ", "した", "った", "んだ", "んだ", "んだ", "った",
    "って", "いて", "いで", "して", "って", "んで", "んで", "んで", "って"] : List String).map String.data

/-- `re.search(r'[一-龥][ぁ-ん]+$', word)`: the word ends in a kanji
immediately followed by a nonempty run of hiragana. -/
def hasKanjiHiraTail (w : Word) : Bool :=
  let r := w.reverse
  (!(r.takeWhile isHiragana).isEmpty) &&
  (match r.dropWhile isHiragana with
   | c :: _ => isKanji c
   | [] => false)

/-- `KeywordExtractor.is_likely_verb` (main.py lines 208-246). -/
def is_likely_verb (w : Word) : Bool :=
  if w ∈ STOP_WORDS then false
  else if w.length < 2 then false
  else if VERB_ENDINGS.any (fun e => endsw e w) then true
  else if hasKanjiHiraTail w then CONJ_ENDINGS.any (fun e => endsw e w)
  else false

/-- `adj_endings` (main.py lines 260-264), in source order (the order
matters for the `的` continue). -/
def ADJ_ENDINGS : List Word :=
  (["い", "かった", "くない", "くて", "ければ",
    "そう", "すぎる", "すぎ", "げ", "み",
    "的", "らしい", "っぽい", "みたい"] : List String).map String.data

/-- `adj_words` (main.py lines 267-269). -/
def ADJ_WORDS : List Word :=
  (["いい", "よい", "すごい", "でかい", "ちいさい", "小さい", "大きい",
    "赤い", "青い", "白い", "黒い", "美しい", "醜い", "遅い", "速い"] : List String).map String.data

/-- The ending loop of `is_likely_adjective`: first matching ending wins,
except that the ending `的` is skipped when `is_likely_noun` accepts. -/
def adjLoop (w : Word) : List Word → Bool
  | [] => false
  | e :: rest =>
    if endsw e w then
      if e = str "的" then
        if is_likely_noun w then adjLoop w rest else true
      else true
    else adjLoop w rest

/-- `KeywordExtractor.is_likely_adjective` (main.py lines 248-284). -/
def is_likely_adjective (w : Word) : Bool :=
  if w ∈ STOP_WORDS then false
  else if w.length < 2 then false
  else if w ∈ ADJ_WORDS then true
  else adjLoop w ADJ_ENDINGS

/-- The per-token filter of `extract_keywords` (main.py lines 299-312):
skip stop words, skip one-character non-kanji tokens, keep tokens accepted
by any of the three predicates. -/
def keywordAccept (t : Word) : Bool :=
  !(decide (t ∈ STOP_WORDS)) &&
  !(decide (t.length < 2) && !(firstIsKanji t)) &&
  (is_likely_noun t || is_likely_verb t || is_likely_adjective t)

/-- `list(set(keywords))` keeps one copy of each accepted token; Python's
set iteration order is unspecified, so the embedding fixes the
first-occurrence order (the choice of order affects no counted quantity). -/
def dedupKeepFirst : List Word → List Word
  | [] => []
  | w :: rest => w :: (dedupKeepFirst rest).filter (fun v => v ≠ w)

/-- `KeywordExtractor.extract_keywords` (main.py lines 286-315). -/
def extract_keywords (t : Word) : List Word :=
  let cleaned := clean_text t
  if cleaned = [] then []
  else dedupKeepFirst ((tokenize_japanese cleaned).filter keywordAccept)

/-!  Frequency aggregation.  `keyword_counter` is a `collections.Counter`,
i.e. an insertion-ordered dict from word to count; it is embedded as an
association list in first-insertion order. -/

/-- `keyword_counter[keyword] += 1` (main.py lines 339-340): bump an
existing entry in place, or append a new entry with count 1 at the end. -/
def incr (ctr : List (Word × Nat)) (w : Word) : List (Word × Nat) :=
  if w ∈ ctr.map Prod.fst then
    ctr.map (fun p => if p.1 = w then (p.1, p.2 + 1) else p)
  else ctr ++ [(w, 1)]

/-- The counter after a sequence of increments, starting empty. -/
def runCtr (ws : List Word) : List (Word × Nat) := ws.foldl incr []

/-- Stable descending insertion: `p` goes after every entry with a strictly
larger count and before the first entry with a smaller-or-equal count. -/
def insertDesc (p : Word × Nat) : List (Word × Nat) → List (Word × Nat)
  | [] => [p]
  | q :: rest => if p.2 < q.2 then q :: insertDesc p rest else p :: q :: rest

/-- Stable sort by count descending, the order produced by
`Counter.most_common` (Python's sort is stable, and `heapq.nlargest`
breaks ties by original position as well). -/
def sortDesc : List (Word × Nat) → List (Word × Nat)
  | [] => []
  | p :: rest => insertDesc p (sortDesc rest)

/-- `keyword_counter.most_common(k)` (main.py lines 343 and 443). -/
def most_common (ctr : List (Word × Nat)) (k : Nat) : List (Word × Nat) :=
  (sortDesc ctr).take k

/-- The count recorded for `w`, 0 when absent (dict lookup with default). -/
def countOf (ctr : List (Word × Nat)) (w : Word) : Nat :=
  ((ctr.filter (fun p => p.1 = w)).map Prod.snd).sum

/-- The counting part of `TwitterStreamListener.on_tweet` (main.py lines
336-340): extract the record's keywords and increment each. -/
def processRecord (ctr : List (Word × Nat)) (text : Word) : List (Word × Nat) :=
  (extract_keywords text).foldl incr ctr

/-!  Bounded FIFO retention, shared by the recent-tweet ring (main.py lines
355-358) and by the deduplication ledger described in the spec. -/

/-- Append `x`, then drop the oldest entries until at most `N` remain
(`recent_tweets[-MAX_TWEETS:]`; a spec ledger evicts at most one). -/
def boundedPush (N : Nat) (l : List α) (x : α) : List α :=
  let l2 := l ++ [x]
  if N < l2.length then l2.drop (l2.length - N) else l2

/-- `MAX_TWEETS` (main.py line 49). -/
def MAX_TWEETS : Nat := 100

/-- The recent-tweet history update of `on_tweet` (main.py lines 355-358):
append, and keep the last `MAX_TWEETS` entries when the bound is exceeded. -/
def pushRecent (l : List α) (x : α) : List α := boundedPush MAX_TWEETS l x

/-- Modelled from the spec: the repository has no Deduplication Ledger in
`src/` (§4.2 describes it across variants); `try_admit` checks membership
and, when the identifier is new, admits it into a capacity-`N` FIFO window,
evicting the oldest entry when full.  Lookup of a seen identifier does not
change the window. -/
def tryAdmit [DecidableEq α] (N : Nat) (entries : List α) (id : α) : Bool × List α :=
  if id ∈ entries then (false, entries)
  else (true, boundedPush N entries id)

/-- Modelled from the spec: admit a sequence of identifiers in order. -/
def admitAll [DecidableEq α] (N : Nat) (entries : List α) (ids : List α) : List α :=
  ids.foldl (fun es i => (tryAdmit N es i).2) entries

/-!  Reconnect loop of `start_twitter_stream` (main.py lines 388-434). -/

/-- The sleep computed after a failed attempt
(`min(120, 2 ** (connection_attempts - 1))`, main.py line 432), as a
function of the already-incremented `connection_attempts`. -/
def sleep_time (connection_attempts : Nat) : Nat :=
  min 120 (2 ^ (connection_attempts - 1))

/-- The backoff formula as the spec states it, `min(MAX_DELAY,
BASE^attempt_count)` with `BASE = 2`, `MAX_DELAY = 120`, where
`attempt_count` counts the attempts already made. -/
def backoff_delay (attempt_count : Nat) : Nat := min 120 (2 ^ attempt_count)

/-- The `while True` retry loop of `start_twitter_stream`, fed a finite
prefix of connection outcomes (`true` = `stream.filter` succeeds).  Each
iteration first increments `connection_attempts`; on success the loop
breaks (returning the counter as it stands), on failure it records the
computed sleep and retries.  Result: final `connection_attempts` and the
list of sleeps performed. -/
def streamLoop : Nat → List Bool → Nat × List Nat
  | attempts, [] => (attempts, [])
  | attempts, ok :: rest =>
    let a := attempts + 1
    if ok then (a, [])
    else
      let r := streamLoop a rest
      (r.1, sleep_time a :: r.2)

/-!  Helper lemmas. -/

/-- Membership in the deduplicated list is membership in the original. -/
theorem mem_dedupKeepFirst {v : Word} : ∀ {l : List Word}, v ∈ dedupKeepFirst l ↔ v ∈ l := by
  intro l
  induction l with
  | nil => simp [dedupKeepFirst]
  | cons w rest ih =>
    simp only [dedupKeepFirst, List.mem_cons, List.mem_filter]
    constructor
    · rintro (rfl | ⟨hv, _⟩)
      · exact Or.inl rfl
      · exact Or.inr (ih.1 hv)
    · rintro (rfl | hv)
      · exact Or.inl rfl
      · by_cases hvw : v = w
        · exact Or.inl hvw
        · exact Or.inr ⟨ih.2 hv, by simpa using hvw⟩

/-- The deduplicated list has no duplicates. -/
theorem nodup_dedupKeepFirst : ∀ (l : List Word), (dedupKeepFirst l).Nodup := by
  intro l
  induction l with
  | nil => simp [dedupKeepFirst]
  | cons w rest ih =>
    refine List.nodup_cons.2 ⟨?_, ih.filter _⟩
    intro hmem
    have h2 := (List.mem_filter.1 hmem).2
    simp at h2

/-- C1: the example input, traced through the embedded pipeline.  Cleaning
removes the URL, the mention, the hashtag and the RT marker; segmentation
merges the whole hiragana run into one token, so the produced tokens are
これはすごい, 朝, です; 朝 is accepted as a single-ideograph noun, です is a
stop word, これはすごい is accepted (default length heuristic), and これ and
すごい are stop words that never occur as tokens. -/
theorem c1_example_behavior :
    clean_text (str "これはすごい朝ですRT @user https://x.co/abc #tag") = str "これはすごい朝です" ∧
    tokenize_japanese (str "これはすごい朝です") = [str "これはすごい", str "朝", str "です"] ∧
    is_likely_noun (str "朝") = true ∧
    str "です" ∈ STOP_WORDS ∧
    str "これ" ∈ STOP_WORDS ∧
    str "すごい" ∈ STOP_WORDS ∧
    extract_keywords (str "これはすごい朝ですRT @user https://x.co/abc #tag") =
      [str "これはすごい", str "朝"] := by
  refine ⟨by decide, by decide, by decide, by decide, by decide, by decide, by decide⟩

/-- C1 counterexample: すごい is not among the tokens segmented from the
example input (the hiragana run これはすごい is one token), and the
adjective test rejects すごい outright because it is a stop word — so the
claim that すごい is accepted as an adjective keyword for this input is
false. -/
theorem c1_counterexample :
    str "すごい" ∉ tokenize_japanese
      (clean_text (str "これはすごい朝ですRT @user https://x.co/abc #tag")) ∧
    is_likely_adjective (str "すごい") = false := by
  exact ⟨by decide, by decide⟩

/-- C3 counterexample: cleaning is not idempotent.  For "RRT T x" the
RT-substitution deletes the inner "T " and glues "R" to the following "T",
creating a fresh "RT " that only a second pass removes. -/
theorem c3_counterexample :
    clean_text (clean_text (str "RRT T x")) ≠ clean_text (str "RRT T x") := by
  decide

/-- C6: the reconnect delay is `min(120, 2^k)` for pre-increment attempt
count `k` (the code computes `2 ** (connection_attempts - 1)` after the
increment); it never exceeds 120, is non-decreasing in the attempt count,
and five consecutive failures from a fresh start sleep 1, 2, 4, 8, 16
seconds. -/
theorem c6_backoff_bounds :
    (∀ k, backoff_delay k ≤ 120) ∧
    (∀ k, backoff_delay k ≤ backoff_delay (k + 1)) ∧
    (∀ k, sleep_time (k + 1) = backoff_delay k) ∧
    (streamLoop 0 (List.replicate 5 false)).2 = [1, 2, 4, 8, 16] := by
  refine ⟨fun k => Nat.min_le_left _ _, fun k => ?_, fun k => ?_, by decide⟩
  · exact min_le_min (le_refl 120) (Nat.pow_le_pow_right (by norm_num) (Nat.le_succ k))
  · simp [sleep_time, backoff_delay]

/-- C7 counterexample: after one failure followed by a successful
connection, the loop exits with `connection_attempts = 2`; the counter is
never reset to 0 on success, and the sleep a further failure would compute
is `sleep_time 3 = 4`, not the smallest delay 1. -/
theorem c7_counterexample :
    (streamLoop 0 [false, true]).1 = 2 ∧ (2 : Nat) ≠ 0 ∧
    sleep_time (2 + 1) = 4 ∧ (4 : Nat) ≠ 1 := by
  decide

/-- C7 amended: on a successful connection the loop breaks with
`connection_attempts` equal to the total number of attempts made (starting
value plus failures plus the successful attempt) — it is not reset to 0 —
and the sleeps performed are the backoff values at the successive counter
values. -/
theorem c7_attempts_after_success :
    ∀ (a n : Nat),
      (streamLoop a (List.replicate n false ++ [true])).1 = a + n + 1 ∧
      (streamLoop a (List.replicate n false ++ [true])).2 =
        (List.range' (a + 1) n).map sleep_time := by
  intro a n
  induction n generalizing a with
  | zero => simp [streamLoop]
  | succ n ih =>
    have h := ih (a + 1)
    have hs : streamLoop a (List.replicate (n + 1) false ++ [true]) =
        ((streamLoop (a + 1) (List.replicate n false ++ [true])).1,
          sleep_time (a + 1) ::
            (streamLoop (a + 1) (List.replicate n false ++ [true])).2) := by
      rw [List.replicate_succ, List.cons_append]
      rfl
    rw [hs]
    refine ⟨?_, ?_⟩
    · show (streamLoop (a + 1) (List.replicate n false ++ [true])).1 = a + (n + 1) + 1
      rw [h.1]; omega
    · show sleep_time (a + 1) ::
          (streamLoop (a + 1) (List.replicate n false ++ [true])).2 =
          (List.range' (a + 1) (n + 1)).map sleep_time
      rw [h.2, List.range'_succ, List.map_cons]

/-- C8: extraction is a total function of the input text; when the cleaned
text is empty it returns the empty list, and every returned keyword is one
of the tokens segmented from the cleaned text. -/
theorem c8_extract_total :
    ∀ t : Word,
      (clean_text t = [] → extract_keywords t = []) ∧
      (∀ w ∈ extract_keywords t, w ∈ tokenize_japanese (clean_text t)) := by
  intro t
  constructor
  · intro h
    simp [extract_keywords, h]
  · intro w hw
    unfold extract_keywords at hw
    by_cases h : clean_text t = []
    · simp [h] at hw
    · rw [if_neg h] at hw
      exact (List.mem_filter.1 (mem_dedupKeepFirst.1 hw)).1

/-- C8 witness: a purely-mention input cleans to the empty string and
extracts no keywords. -/
theorem c8_witness : extract_keywords (str "@abc") = [] :=
  (c8_extract_total (str "@abc")).1 (by decide)

/-- A word whose ending test for a single character succeeds reverses to
that character followed by some tail. -/
theorem endsw_single {c : Char} {w : Word} (h : endsw [c] w = true) :
    ∃ t, w.reverse = c :: t := by
  unfold endsw at h
  cases hr : w.reverse with
  | nil => rw [hr] at h; simp [List.isPrefixOf] at h
  | cons c' t =>
    rw [hr] at h
    simp only [List.reverse_cons, List.reverse_nil, List.nil_append,
      List.isPrefixOf, Bool.and_true, beq_iff_eq] at h
    exact ⟨t, by simp_all⟩

/-- C9: for a token of length at least 2 that is not a stop word, ends in
的, and is accepted by the noun test, the adjective test rejects it: the
的 ending is skipped in favour of the noun classification, no other
adjective ending matches a 的-final token, and no entry of the fixed
adjective list is 的-final. -/
theorem c9_teki_noun_priority (w : Word)
    (h2 : 2 ≤ w.length) (hstop : w ∉ STOP_WORDS)
    (hend : endsw (str "的") w = true)
    (hnoun : is_likely_noun w = true) :
    is_likely_adjective w = false ∧
    w ∉ ADJ_WORDS ∧
    (∀ e ∈ ADJ_ENDINGS, e ≠ str "的" → endsw e w = false) := by
  obtain ⟨t, hrev⟩ := endsw_single (c := '的') hend
  have hlast : w.getLast? = some '的' := by rw [← List.head?_reverse, hrev]; rfl
  have hADJW : w ∉ ADJ_WORDS := by
    intro hmem
    simp only [ADJ_WORDS, List.map, List.mem_cons, List.not_mem_nil, or_false] at hmem
    rcases hmem with rfl | rfl | rfl | rfl | rfl | rfl | rfl | rfl | rfl | rfl | rfl |
      rfl | rfl | rfl | rfl
    all_goals exact absurd hlast (by decide)
  have hne : ∀ e ∈ ADJ_ENDINGS, e ≠ str "的" → endsw e w = false := by
    intro e he hneq
    simp only [ADJ_ENDINGS, List.map, List.mem_cons, List.not_mem_nil, or_false] at he
    rcases he with rfl | rfl | rfl | rfl | rfl | rfl | rfl | rfl | rfl | rfl | rfl |
      rfl | rfl | rfl
    all_goals first
      | exact absurd rfl hneq
      | simp [endsw, str, hrev, List.isPrefixOf]
  refine ⟨?_, hADJW, hne⟩
  unfold is_likely_adjective
  rw [if_neg hstop, if_neg (by omega : ¬w.length < 2), if_neg hADJW]
  have hA : ADJ_ENDINGS =
      [str "い", str "かった", str "くない", str "くて", str "ければ",
       str "そう", str "すぎる", str "すぎ", str "げ", str "み",
       str "的", str "らしい", str "っぽい", str "みたい"] := by decide
  rw [hA]
  simp only [adjLoop]
  simp [endsw, str, hrev, List.isPrefixOf, hnoun]

/-- C9 witness: 目的 is a two-character non-stop-word ending in 的 that the
noun test accepts, and the adjective test rejects it. -/
theorem c9_witness :
    2 ≤ (str "目的").length ∧ str "目的" ∉ STOP_WORDS ∧
    endsw (str "的") (str "目的") = true ∧ is_likely_noun (str "目的") = true ∧
    is_likely_adjective (str "目的") = false :=
  ⟨by decide, by decide, by decide, by decide,
    (c9_teki_noun_priority (str "目的") (by decide) (by decide) (by decide)
      (by decide)).1⟩

/-- One bounded push starting from the retained suffix yields the retained
suffix of the extended list. -/
theorem boundedPush_drop {α : Type} (N : Nat) (xs : List α) (x : α) :
    boundedPush N (xs.drop (xs.length - N)) x =
      (xs ++ [x]).drop ((xs ++ [x]).length - N) := by
  have hp : (xs.drop (xs.length - N)).length = xs.length - (xs.length - N) :=
    List.length_drop _ _
  unfold boundedPush
  by_cases hN : xs.length < N
  · have h0 : xs.length - N = 0 := by omega
    rw [h0, List.drop_zero]
    rw [if_neg (by simp; omega)]
    have : (xs ++ [x]).length - N = 0 := by simp; omega
    rw [this, List.drop_zero]
  · have hlen : (xs.drop (xs.length - N)).length = N := by omega
    rw [if_pos (by simp [hlen])]
    by_cases hz : N = 0
    · subst hz
      simp [List.drop_length]
    · have h1 : 1 ≤ (xs.drop (xs.length - N)).length := by omega
      have hL : ((xs.drop (xs.length - N)) ++ [x]).length - N = 1 := by
        simp only [List.length_append, List.length_cons, List.length_nil, hlen]
        omega
      rw [hL, List.drop_append_of_le_length h1, List.drop_drop]
      have h2 : (xs ++ [x]).length - N = (xs.length - N) + 1 := by
        simp only [List.length_append, List.length_cons, List.length_nil]
        omega
      rw [h2, List.drop_append_of_le_length (by omega : xs.length - N + 1 ≤ xs.length)]

/-- Folding bounded pushes from the empty list keeps exactly the last `N`
elements. -/
theorem foldl_boundedPush {α : Type} (N : Nat) (xs : List α) :
    xs.foldl (boundedPush N) [] = xs.drop (xs.length - N) := by
  induction xs using List.reverseRecOn with
  | nil => simp
  | append_singleton xs x ih =>
    rw [List.foldl_append, List.foldl_cons, List.foldl_nil, ih, boundedPush_drop]

/-- On distinct, previously-unseen identifiers the ledger behaves as a pure
bounded FIFO push. -/
theorem admitAll_eq_boundedPush {α : Type} [DecidableEq α] (N : Nat) :
    ∀ ids : List α, ids.Nodup →
      admitAll N [] ids = ids.foldl (boundedPush N) [] := by
  intro ids hnd
  induction ids using List.reverseRecOn with
  | nil => rfl
  | append_singleton ids id ih =>
    have hnd' : ids.Nodup := hnd.sublist (List.sublist_append_left _ _)
    have hid : id ∉ ids := by
      intro hmem
      have := List.disjoint_of_nodup_append hnd
      exact this hmem (List.mem_singleton_self id)
    rw [admitAll, List.foldl_append, List.foldl_cons, List.foldl_nil,
      List.foldl_append, List.foldl_cons, List.foldl_nil]
    show (tryAdmit N (admitAll N [] ids) id).2 = boundedPush N (ids.foldl (boundedPush N) []) id
    rw [ih hnd', foldl_boundedPush]
    have hnotin : id ∉ (ids.drop (ids.length - N)) := fun h => hid (List.drop_subset _ _ h)
    rw [tryAdmit, if_neg hnotin]

/-- C5: the deduplication ledger (modelled from the spec) has strict FIFO
eviction: admitting `N + m` distinct identifiers into an empty capacity-`N`
ledger retains exactly the last `N` of them (the `(m+1)`-th through
`(N+m)`-th), and re-inserting any of the `m` evicted identifiers is
admitted as new. -/
theorem c5_ledger_fifo {α : Type} [DecidableEq α] (N m : Nat) (ids : List α)
    (hnd : ids.Nodup) (hlen : ids.length = N + m) (hm : 0 < m) :
    admitAll N [] ids = ids.drop m ∧
    (admitAll N [] ids).length = N ∧
    (∀ id ∈ ids.take m, (tryAdmit N (admitAll N [] ids) id).1 = true) := by
  have h1 : admitAll N [] ids = ids.drop m := by
    rw [admitAll_eq_boundedPush N ids hnd, foldl_boundedPush]
    congr 1
    omega
  refine ⟨h1, ?_, ?_⟩
  · rw [h1, List.length_drop]; omega
  · intro id hid
    have hdisj := List.disjoint_take_drop hnd (le_refl m)
    have hnotin : id ∉ ids.drop m := fun hmem => hdisj hid hmem
    rw [h1, tryAdmit, if_neg hnotin]

/-- C5 witness: capacity 2, three distinct identifiers — the first is
evicted, the last two remain, and re-inserting the first is admitted. -/
theorem c5_witness :
    ([1, 2, 3] : List Nat).Nodup ∧
    admitAll 2 [] ([1, 2, 3] : List Nat) = [2, 3] ∧
    (tryAdmit 2 (admitAll 2 [] ([1, 2, 3] : List Nat)) 1).1 = true := by
  refine ⟨by decide, ?_, ?_⟩
  · exact (c5_ledger_fifo 2 1 [1, 2, 3] (by decide) (by decide) (by decide)).1.trans
      (by decide)
  · exact (c5_ledger_fifo 2 1 [1, 2, 3] (by decide) (by decide) (by decide)).2.2 1
      (by decide)

/-- C10: after any sequence of appends starting from the empty history, the
recent-tweet list holds exactly the last `MAX_TWEETS` records appended (all
of them while the bound is not exceeded), hence never more than
`MAX_TWEETS` entries. -/
theorem c10_recent_bound {α : Type} (xs : List α) :
    xs.foldl pushRecent [] = xs.drop (xs.length - MAX_TWEETS) ∧
    (xs.foldl pushRecent []).length ≤ MAX_TWEETS := by
  have he : (pushRecent : List α → α → List α) = boundedPush MAX_TWEETS := rfl
  have h1 : xs.foldl pushRecent [] = xs.drop (xs.length - MAX_TWEETS) := by
    rw [he, foldl_boundedPush]
  refine ⟨h1, ?_⟩
  rw [h1, List.length_drop]
  omega

/-- Elements of `insertDesc p l` are `p` or elements of `l`. -/
theorem mem_insertDesc {x p : Word × Nat} :
    ∀ {l : List (Word × Nat)}, x ∈ insertDesc p l → x = p ∨ x ∈ l := by
  intro l
  induction l with
  | nil => simp [insertDesc]
  | cons q rest ih =>
    simp only [insertDesc]
    by_cases h : p.2 < q.2
    · rw [if_pos h]
      intro hx
      rcases List.mem_cons.1 hx with rfl | hx'
      · exact Or.inr (List.mem_cons_self _ _)
      · rcases ih hx' with rfl | hr
        · exact Or.inl rfl
        · exact Or.inr (List.mem_cons_of_mem _ hr)
    · rw [if_neg h]
      intro hx
      rcases List.mem_cons.1 hx with rfl | hx'
      · exact Or.inl rfl
      · exact Or.inr hx'

/-- Stable descending insertion preserves descending order. -/
theorem pairwise_insertDesc (p : Word × Nat) :
    ∀ {l : List (Word × Nat)}, l.Pairwise (fun a b => b.2 ≤ a.2) →
      (insertDesc p l).Pairwise (fun a b => b.2 ≤ a.2) := by
  intro l
  induction l with
  | nil => intro _; simp [insertDesc]
  | cons q rest ih =>
    intro h
    have hq := List.pairwise_cons.1 h
    simp only [insertDesc]
    by_cases hc : p.2 < q.2
    · rw [if_pos hc]
      refine List.pairwise_cons.2 ⟨?_, ih hq.2⟩
      intro x hx
      rcases mem_insertDesc hx with rfl | hr
      · omega
      · exact hq.1 x hr
    · rw [if_neg hc]
      refine List.pairwise_cons.2 ⟨?_, h⟩
      intro x hx
      rcases List.mem_cons.1 hx with rfl | hr
      · omega
      · have := hq.1 x hr
        omega

/-- `sortDesc` sorts by count, descending. -/
theorem pairwise_sortDesc :
    ∀ l : List (Word × Nat), (sortDesc l).Pairwise (fun a b => b.2 ≤ a.2) := by
  intro l
  induction l with
  | nil => simp [sortDesc]
  | cons p rest ih => exact pairwise_insertDesc p ih

/-- Stability of the insertion: restricted to any fixed count, insertion
puts `p` first (when its count matches) and otherwise changes nothing. -/
theorem filter_insertDesc (c : Nat) (p : Word × Nat) :
    ∀ l : List (Word × Nat),
      (insertDesc p l).filter (fun q => q.2 = c) =
        if p.2 = c then p :: l.filter (fun q => q.2 = c)
        else l.filter (fun q => q.2 = c) := by
  intro l
  induction l with
  | nil => by_cases h : p.2 = c <;> simp [insertDesc, h]
  | cons q rest ih =>
    simp only [insertDesc]
    by_cases hc : p.2 < q.2
    · rw [if_pos hc]
      by_cases hp : p.2 = c
      · have hqc : ¬(q.2 = c) := by omega
        rw [if_pos hp]
        simp only [List.filter_cons, if_pos hp]
        rw [ih, if_pos hp]
        simp [hqc]
      · rw [if_neg hp]
        simp only [List.filter_cons]
        rw [ih, if_neg hp]
    · rw [if_neg hc]
      by_cases hp : p.2 = c
      · rw [if_pos hp]
        simp only [List.filter_cons]
        simp [hp]
      · rw [if_neg hp]
        simp only [List.filter_cons]
        simp [hp]

/-- Stability of the sort: restricted to any fixed count, `sortDesc` is the
identity on the subsequence of entries with that count. -/
theorem filter_sortDesc (c : Nat) :
    ∀ l : List (Word × Nat),
      (sortDesc l).filter (fun q => q.2 = c) = l.filter (fun q => q.2 = c) := by
  intro l
  induction l with
  | nil => simp [sortDesc]
  | cons p rest ih =>
    simp only [sortDesc]
    rw [filter_insertDesc, List.filter_cons]
    by_cases hp : p.2 = c
    · rw [if_pos hp, ih, if_pos (by simpa using hp)]
    · rw [if_neg hp, ih, if_neg (by simpa using hp)]

/-- Updating an existing key leaves the key sequence unchanged. -/
theorem map_fst_update (w : Word) :
    ∀ ctr : List (Word × Nat),
      (ctr.map (fun p => if p.1 = w then (p.1, p.2 + 1) else p)).map Prod.fst =
        ctr.map Prod.fst := by
  intro ctr
  induction ctr with
  | nil => rfl
  | cons p rest ih =>
    by_cases hp : p.1 = w <;> simp [hp, ih]

/-- Keys after an increment: unchanged for a known word, the word appended
for a new one. -/
theorem map_fst_incr (ctr : List (Word × Nat)) (w : Word) :
    (incr ctr w).map Prod.fst =
      if w ∈ ctr.map Prod.fst then ctr.map Prod.fst
      else ctr.map Prod.fst ++ [w] := by
  unfold incr
  by_cases h : w ∈ ctr.map Prod.fst
  · rw [if_pos h, if_pos h, map_fst_update]
  · rw [if_neg h, if_neg h, List.map_append]
    rfl

/-- First-occurrence deduplication interacts with a snoc as expected. -/
theorem dedupKeepFirst_append_singleton (w : Word) :
    ∀ l : List Word,
      dedupKeepFirst (l ++ [w]) =
        if w ∈ l then dedupKeepFirst l else dedupKeepFirst l ++ [w] := by
  intro l
  induction l with
  | nil => simp [dedupKeepFirst]
  | cons v l ih =>
    have hc : (v :: l) ++ [w] = v :: (l ++ [w]) := rfl
    rw [hc]
    show v :: (dedupKeepFirst (l ++ [w])).filter (fun u => u ≠ v) = _
    rw [ih]
    by_cases hw : w ∈ l
    · rw [if_pos hw, if_pos (List.mem_cons_of_mem v hw)]
      rfl
    · rw [if_neg hw]
      by_cases hv : w = v
      · subst hv
        rw [if_pos (List.mem_cons_self _ _)]
        show _ = w :: (dedupKeepFirst l).filter (fun u => u ≠ w)
        simp [List.filter_append]
      · rw [if_neg (by simp [hv, hw])]
        show _ = (v :: (dedupKeepFirst l).filter (fun u => u ≠ v)) ++ [w]
        simp [List.filter_append, hv]

/-- The counter's keys are exactly the distinct words in first-increment
order. -/
theorem map_fst_runCtr :
    ∀ ws : List Word, (runCtr ws).map Prod.fst = dedupKeepFirst ws := by
  intro ws
  induction ws using List.reverseRecOn with
  | nil => rfl
  | append_singleton ws w ih =>
    have hr : runCtr (ws ++ [w]) = incr (runCtr ws) w := by
      simp [runCtr, List.foldl_append]
    rw [hr, map_fst_incr, ih, dedupKeepFirst_append_singleton]
    by_cases h : w ∈ ws
    · rw [if_pos (mem_dedupKeepFirst.2 h), if_pos h]
    · rw [if_neg (fun hc => h (mem_dedupKeepFirst.1 hc)), if_neg h]

/-- C4: for every increment sequence and every `k`, `most_common` returns
entries sorted by count descending; the sort is stable (entries of equal
count keep the counter's order), and the counter's order is the insertion
order of each word's first increment — the result never depends on an
unordered structure. -/
theorem c4_top_sorted_stable (ws : List Word) (k : Nat) :
    (most_common (runCtr ws) k).Pairwise (fun p q => q.2 ≤ p.2) ∧
    (∀ c, (sortDesc (runCtr ws)).filter (fun q => q.2 = c) =
      (runCtr ws).filter (fun q => q.2 = c)) ∧
    (runCtr ws).map Prod.fst = dedupKeepFirst ws := by
  refine ⟨?_, fun c => filter_sortDesc c _, map_fst_runCtr ws⟩
  exact List.Pairwise.sublist (List.take_sublist _ _) (pairwise_sortDesc _)

/-- Occurrence count of a word in a list, written with an explicit
`decide` so it is definitionally `List.count` at the instance derived from
decidable equality. -/
def countEq (l : List Word) (w : Word) : Nat := l.countP (fun u => decide (u = w))

/-- Unfolding `countOf` over a cons. -/
theorem countOf_cons (p : Word × Nat) (ctr : List (Word × Nat)) (v : Word) :
    countOf (p :: ctr) v = (if p.1 = v then p.2 else 0) + countOf ctr v := by
  by_cases h : p.1 = v <;> simp [countOf, List.filter_cons, h]

/-- `countOf` of the empty counter. -/
theorem countOf_nil (v : Word) : countOf [] v = 0 := rfl

/-- Unfolding `countEq` over a cons. -/
theorem countEq_cons (k : Word) (ks : List Word) (v : Word) :
    countEq (k :: ks) v = countEq ks v + (if k = v then 1 else 0) := by
  by_cases h : k = v <;> simp [countEq, List.countP_cons, h]

/-- Updating a key that is absent changes nothing. -/
theorem map_update_of_not_mem (w : Word) :
    ∀ ctr : List (Word × Nat), w ∉ ctr.map Prod.fst →
      ctr.map (fun p => if p.1 = w then (p.1, p.2 + 1) else p) = ctr := by
  intro ctr
  induction ctr with
  | nil => intro _; rfl
  | cons p rest ih =>
    intro h
    have hp : ¬(p.1 = w) := fun hc => h (by simp [hc])
    have hr : w ∉ rest.map Prod.fst := fun hc => h (List.mem_cons_of_mem _ hc)
    simp [hp, ih hr]

/-- Counting through an in-place update of a key occurring at most once. -/
theorem countOf_update (w v : Word) :
    ∀ ctr : List (Word × Nat), countEq (ctr.map Prod.fst) w ≤ 1 →
      w ∈ ctr.map Prod.fst →
      countOf (ctr.map (fun p => if p.1 = w then (p.1, p.2 + 1) else p)) v =
        countOf ctr v + (if v = w then 1 else 0) := by
  intro ctr
  induction ctr with
  | nil => intro _ hmem; simp at hmem
  | cons p rest ih =>
    intro hcount hmem
    by_cases hp : p.1 = w
    · have hzero : countEq (rest.map Prod.fst) w = 0 := by
        have h1 : countEq (p.1 :: rest.map Prod.fst) w =
            countEq (rest.map Prod.fst) w + 1 := by
          rw [countEq_cons, if_pos hp]
        simp only [List.map_cons] at hcount
        rw [h1] at hcount
        omega
      have hnot : w ∉ rest.map Prod.fst := by
        intro hc
        have : 1 ≤ countEq (rest.map Prod.fst) w := by
          have := List.countP_pos_iff (p := fun u => decide (u = w))
            (l := rest.map Prod.fst)
          exact this.2 ⟨w, hc, by simp⟩
        omega
      simp only [List.map_cons, if_pos hp, map_update_of_not_mem w rest hnot]
      rw [countOf_cons, countOf_cons]
      by_cases hv : v = w
      · rw [if_pos hv]
        have hpv : p.1 = v := by rw [hp, hv]
        simp only [if_pos hpv]
        omega
      · rw [if_neg hv]
        have hpv : ¬(p.1 = v) := by rw [hp]; exact fun hc => hv hc.symm
        simp [hpv]
    · have hmem' : w ∈ rest.map Prod.fst := by
        rcases List.mem_cons.1 hmem with h | h
        · exact absurd h.symm hp
        · exact h
      have hcount' : countEq (rest.map Prod.fst) w ≤ 1 := by
        simp only [List.map_cons] at hcount
        rw [countEq_cons] at hcount
        omega
      simp only [List.map_cons, if_neg hp]
      rw [countOf_cons, countOf_cons, ih hcount' hmem']
      omega

/-- `countOf` distributes over list append of counters. -/
theorem countOf_append (l1 l2 : List (Word × Nat)) (v : Word) :
    countOf (l1 ++ l2) v = countOf l1 v + countOf l2 v := by
  simp [countOf, List.filter_append]

/-- A word absent from a list has occurrence count zero. -/
theorem countEq_eq_zero_of_not_mem {w : Word} {l : List Word} (h : w ∉ l) :
    countEq l w = 0 := by
  rw [countEq, List.countP_eq_zero]
  intro a ha hc
  simp only [decide_eq_true_eq] at hc
  exact h (hc ▸ ha)

/-- In a duplicate-free list a member has occurrence count one. -/
theorem countEq_eq_one_of_nodup_mem {w : Word} :
    ∀ {l : List Word}, l.Nodup → w ∈ l → countEq l w = 1 := by
  intro l
  induction l with
  | nil => intro _ h; simp at h
  | cons a l ih =>
    intro hnd hmem
    have hnd' := List.nodup_cons.1 hnd
    rw [countEq_cons]
    by_cases ha : a = w
    · rw [if_pos ha]
      have : w ∉ l := ha ▸ hnd'.1
      rw [countEq_eq_zero_of_not_mem this]
    · rw [if_neg ha]
      have hmem' : w ∈ l := by
        rcases List.mem_cons.1 hmem with h | h
        · exact absurd h.symm ha
        · exact h
      rw [ih hnd'.2 hmem']

/-- In a duplicate-free list every occurrence count is at most one. -/
theorem countEq_le_one_of_nodup {w : Word} {l : List Word} (h : l.Nodup) :
    countEq l w ≤ 1 := by
  by_cases hm : w ∈ l
  · exact le_of_eq (countEq_eq_one_of_nodup_mem h hm)
  · rw [countEq_eq_zero_of_not_mem hm]
    omega

/-- Counting through a single increment when keys are distinct. -/
theorem countOf_incr (ctr : List (Word × Nat)) (w v : Word)
    (h : (ctr.map Prod.fst).Nodup) :
    countOf (incr ctr w) v = countOf ctr v + (if v = w then 1 else 0) := by
  unfold incr
  by_cases hm : w ∈ ctr.map Prod.fst
  · rw [if_pos hm]
    exact countOf_update w v ctr (countEq_le_one_of_nodup h) hm
  · rw [if_neg hm, countOf_append, countOf_cons]
    by_cases hv : v = w
    · simp [hv, countOf_nil]
    · have hwv : ¬(w = v) := fun hc => hv hc.symm
      simp [hwv, hv, countOf_nil]

/-- Keys stay distinct through an increment. -/
theorem keysNodup_incr (ctr : List (Word × Nat)) (w : Word)
    (h : (ctr.map Prod.fst).Nodup) : ((incr ctr w).map Prod.fst).Nodup := by
  rw [map_fst_incr]
  by_cases hm : w ∈ ctr.map Prod.fst
  · rwa [if_pos hm]
  · rw [if_neg hm]
    simp [List.nodup_append, h, hm]

/-- Keys stay distinct through any increment sequence. -/
theorem keysNodup_foldl :
    ∀ (ks : List Word) (ctr : List (Word × Nat)), (ctr.map Prod.fst).Nodup →
      ((ks.foldl incr ctr).map Prod.fst).Nodup := by
  intro ks
  induction ks with
  | nil => intro ctr h; exact h
  | cons k ks ih =>
    intro ctr h
    exact ih (incr ctr k) (keysNodup_incr ctr k h)

/-- Counting through an increment sequence: each occurrence adds one. -/
theorem countOf_foldl (v : Word) :
    ∀ (ks : List Word) (ctr : List (Word × Nat)), (ctr.map Prod.fst).Nodup →
      countOf (ks.foldl incr ctr) v = countOf ctr v + countEq ks v := by
  intro ks
  induction ks with
  | nil => intro ctr _; simp [countEq]
  | cons k ks ih =>
    intro ctr h
    rw [List.foldl_cons, ih (incr ctr k) (keysNodup_incr ctr k h),
      countOf_incr ctr k v h, countEq_cons]
    by_cases hv : v = k
    · have hkv : k = v := hv.symm
      rw [if_pos hv, if_pos hkv]
      omega
    · have hkv : ¬(k = v) := fun hc => hv hc.symm
      rw [if_neg hv, if_neg hkv]
      omega

/-- The extractor returns each accepted token at most once. -/
theorem nodup_extract (t : Word) : (extract_keywords t).Nodup := by
  unfold extract_keywords
  by_cases h : clean_text t = []
  · simp [h]
  · rw [if_neg h]
    exact nodup_dedupKeepFirst _

/-- Counting through a record sequence starting from any well-formed
counter. -/
theorem countOf_processRecords (w : Word) :
    ∀ (texts : List Word) (ctr : List (Word × Nat)), (ctr.map Prod.fst).Nodup →
      countOf (texts.foldl processRecord ctr) w =
        countOf ctr w + texts.countP (fun t => decide (w ∈ extract_keywords t)) := by
  intro texts
  induction texts with
  | nil => intro ctr _; simp
  | cons t ts ih =>
    intro ctr h
    have hrec : (processRecord ctr t).map Prod.fst |>.Nodup :=
      keysNodup_foldl (extract_keywords t) ctr h
    rw [List.foldl_cons, ih (processRecord ctr t) hrec]
    have hcount : countOf (processRecord ctr t) w =
        countOf ctr w + countEq (extract_keywords t) w :=
      countOf_foldl w (extract_keywords t) ctr h
    have hc1 : countEq (extract_keywords t) w =
        if w ∈ extract_keywords t then 1 else 0 := by
      by_cases hm : w ∈ extract_keywords t
      · rw [if_pos hm]
        exact countEq_eq_one_of_nodup_mem (nodup_extract t) hm
      · rw [if_neg hm]
        exact countEq_eq_zero_of_not_mem hm
    rw [List.countP_cons, hcount, hc1]
    by_cases hm : w ∈ extract_keywords t
    · simp [hm]
      omega
    · simp [hm]

/-- C2 counterexample: in the record "平和 平和" the keyword 平和 is
accepted twice among the tokens, yet `extract_keywords` collapses the
duplicates (`list(set(...))`), so processing the record increments the
count once, not twice. -/
theorem c2_counterexample :
    tokenize_japanese (clean_text (str "平和 平和")) = [str "平和", str "平和"] ∧
    keywordAccept (str "平和") = true ∧
    extract_keywords (str "平和 平和") = [str "平和"] ∧
    countOf (processRecord [] (str "平和 平和")) (str "平和") = 1 ∧
    (1 : Nat) ≠ 2 := by
  refine ⟨by decide, by decide, by decide, by decide, by decide⟩

/-- C2 amended: duplicate accepted tokens within one record ARE collapsed
before counting; the extractor returns each accepted word once per record,
and the count of any word equals the number of records (since the last
reset) whose extracted keyword set contains it. -/
theorem c2_record_dedup_counting (texts : List Word) (w : Word) :
    countOf (texts.foldl processRecord []) w =
      texts.countP (fun t => decide (w ∈ extract_keywords t)) ∧
    ∀ t : Word, (extract_keywords t).Nodup := by
  refine ⟨?_, nodup_extract⟩
  have h := countOf_processRecords w texts [] (by simp)
  simpa [countOf_nil] using h

/-- A nonempty collapse in skipping mode starts with a non-space
character. -/
theorem cwAux_true_head :
    ∀ (l : List Char) (c : Char), (cwAux true l).head? = some c →
      isPySpace c = false := by
  intro l
  induction l with
  | nil => intro c hc; simp [cwAux] at hc
  | cons d cs ih =>
    intro c hc
    by_cases hd : isPySpace d
    · rw [show cwAux true (d :: cs) = cwAux true cs by simp [cwAux, hd]] at hc
      exact ih c hc
    · rw [show cwAux true (d :: cs) = d :: cwAux false cs by
        simp [cwAux, hd]] at hc
      have : d = c := by simpa using hc
      rw [← this]
      simpa using hd

/-- Collapsed output never has two adjacent whitespace characters. -/
theorem cwAux_chain :
    ∀ (l : List Char) (b : Bool),
      (cwAux b l).Chain'
        (fun a c => ¬(isPySpace a = true ∧ isPySpace c = true)) := by
  intro l
  induction l with
  | nil => intro b; simp [cwAux]
  | cons d cs ih =>
    intro b
    by_cases hd : isPySpace d
    · cases b
      · rw [show cwAux false (d :: cs) = ' ' :: cwAux true cs by
          simp [cwAux, hd]]
        refine List.chain'_cons'.2 ⟨?_, ih true⟩
        intro y hy hcon
        rw [cwAux_true_head cs y hy] at hcon
        exact absurd hcon.2 (by simp)
      · rw [show cwAux true (d :: cs) = cwAux true cs by simp [cwAux, hd]]
        exact ih true
    · rw [show cwAux b (d :: cs) = d :: cwAux false cs by simp [cwAux, hd]]
      refine List.chain'_cons'.2 ⟨?_, ih false⟩
      intro y _ hcon
      rw [hcon.1] at hd
      exact hd rfl

/-- Every whitespace character in collapsed output is the ASCII space. -/
theorem cwAux_blank :
    ∀ (l : List Char) (b : Bool) (c : Char), c ∈ cwAux b l →
      isPySpace c = true → c = ' ' := by
  intro l
  induction l with
  | nil => intro b c hc; simp [cwAux] at hc
  | cons d cs ih =>
    intro b c hc hsp
    by_cases hd : isPySpace d
    · cases b
      · rw [show cwAux false (d :: cs) = ' ' :: cwAux true cs by
          simp [cwAux, hd]] at hc
        rcases List.mem_cons.1 hc with rfl | hc'
        · rfl
        · exact ih true c hc' hsp
      · rw [show cwAux true (d :: cs) = cwAux true cs by simp [cwAux, hd]] at hc
        exact ih true c hc hsp
    · rw [show cwAux b (d :: cs) = d :: cwAux false cs by simp [cwAux, hd]] at hc
      rcases List.mem_cons.1 hc with rfl | hc'
      · rw [hsp] at hd; exact absurd rfl hd
      · exact ih false c hc' hsp

/-- A list with isolated single-space whitespace, all-ASCII spaces, and a
non-space final character is a fixed point of whitespace collapsing (in
skipping mode the head must additionally be non-space). -/
theorem cwAux_fix :
    ∀ l : List Char,
      l.Chain' (fun a c => ¬(isPySpace a = true ∧ isPySpace c = true)) →
      (∀ c ∈ l, isPySpace c = true → c = ' ') →
      (∀ c, l.getLast? = some c → isPySpace c = false) →
      cwAux false l = l ∧
        ((∀ c, l.head? = some c → isPySpace c = false) → cwAux true l = l) := by
  intro l
  induction l with
  | nil => intro _ _ _; exact ⟨rfl, fun _ => rfl⟩
  | cons d cs ih =>
    intro hch hbl hlast
    have htail_ch := (List.chain'_cons'.1 hch).2
    have hrel := (List.chain'_cons'.1 hch).1
    have htail_bl : ∀ c ∈ cs, isPySpace c = true → c = ' ' :=
      fun c hc => hbl c (List.mem_cons_of_mem d hc)
    by_cases hd : isPySpace d
    · have hd' : d = ' ' := hbl d (List.mem_cons_self d cs) hd
      rcases cs with _ | ⟨e, cs'⟩
      · exact absurd (hlast d rfl) (by simp [hd])
      · have he : isPySpace e = false := by
          by_contra he'
          exact hrel e rfl ⟨hd, by simpa using he'⟩
        have htail_last : ∀ c, (e :: cs').getLast? = some c →
            isPySpace c = false := by
          intro c hc
          exact hlast c (by rw [List.getLast?_cons_cons]; exact hc)
        have hcs : cwAux true (e :: cs') = e :: cs' :=
          (ih htail_ch htail_bl htail_last).2
            (fun c hc => by
              have : e = c := by simpa using hc
              rw [← this]; exact he)
        refine ⟨?_, ?_⟩
        · rw [show cwAux false (d :: e :: cs') = ' ' :: cwAux true (e :: cs') by
            simp [cwAux, hd]]
          rw [hcs, hd']
        · intro hhead
          have := hhead d rfl
          rw [hd] at this
          exact absurd this (by simp)
    · have hdf : isPySpace d = false := by simpa using hd
      have hcs : cwAux false cs = cs := by
        rcases cs with _ | ⟨e, cs'⟩
        · rfl
        · exact (ih htail_ch htail_bl
            (fun c hc => hlast c (by rw [List.getLast?_cons_cons]; exact hc))).1
      have hstep : ∀ b : Bool, cwAux b (d :: cs) = d :: cs := by
        intro b
        rw [show cwAux b (d :: cs) = d :: cwAux false cs by simp [cwAux, hdf]]
        rw [hcs]
      exact ⟨hstep false, fun _ => hstep true⟩

/-- Dropping a prefix preserves adjacency constraints. -/
theorem chain'_dropWhile {R : Char → Char → Prop} (p : Char → Bool) :
    ∀ l : List Char, l.Chain' R → (l.dropWhile p).Chain' R := by
  intro l
  induction l with
  | nil => intro _; simp
  | cons a l ih =>
    intro h
    rw [List.dropWhile_cons]
    by_cases ha : p a
    · rw [if_pos ha]
      exact ih (List.chain'_cons'.1 h).2
    · rw [if_neg ha]
      exact h

/-- The head surviving `dropWhile` fails the predicate. -/
theorem head?_dropWhile_false (p : Char → Bool) :
    ∀ (l : List Char) (c : Char), (l.dropWhile p).head? = some c →
      p c = false := by
  intro l
  induction l with
  | nil => intro c hc; simp at hc
  | cons a l ih =>
    intro c hc
    rw [List.dropWhile_cons] at hc
    by_cases ha : p a
    · rw [if_pos ha] at hc
      exact ih c hc
    · rw [if_neg ha] at hc
      have : a = c := by simpa using hc
      rw [← this]
      simpa using ha

/-- When `dropWhile` leaves something, the last element is unchanged. -/
theorem getLast?_dropWhile (p : Char → Bool) :
    ∀ l : List Char, l.dropWhile p ≠ [] →
      (l.dropWhile p).getLast? = l.getLast? := by
  intro l
  induction l with
  | nil => intro h; exact absurd rfl h
  | cons a l ih =>
    intro h
    rw [List.dropWhile_cons] at h ⊢
    by_cases ha : p a
    · rw [if_pos ha] at h ⊢
      have hl : l ≠ [] := by
        intro hnil
        rw [hnil] at h
        exact h rfl
      rcases l with _ | ⟨b, l'⟩
      · exact absurd rfl hl
      · rw [ih h, List.getLast?_cons_cons]
    · rw [if_neg ha]

/-- A list whose first and last characters are non-space is a fixed point
of stripping. -/
theorem stripPy_eq_self (l : List Char)
    (hh : ∀ c, l.head? = some c → isPySpace c = false)
    (hl : ∀ c, l.getLast? = some c → isPySpace c = false) :
    stripPy l = l := by
  have h1 : l.dropWhile isPySpace = l := by
    rcases l with _ | ⟨a, l⟩
    · rfl
    · rw [List.dropWhile_cons, if_neg (by simp [hh a rfl])]
  rw [stripPy, h1]
  have h2 : l.reverse.dropWhile isPySpace = l.reverse := by
    rcases hr : l.reverse with _ | ⟨a, r⟩
    · rfl
    · have ha : l.getLast? = some a := by
        rw [← List.head?_reverse, hr]; rfl
      rw [List.dropWhile_cons, if_neg (by simp [hl a ha])]
  rw [h2, List.reverse_reverse]

/-- Stripping preserves the no-adjacent-whitespace property. -/
theorem stripPy_chain (l : List Char)
    (h : l.Chain' (fun a c => ¬(isPySpace a = true ∧ isPySpace c = true))) :
    (stripPy l).Chain'
      (fun a c => ¬(isPySpace a = true ∧ isPySpace c = true)) := by
  have hrev : ∀ m : List Char,
      m.Chain' (fun a c => ¬(isPySpace a = true ∧ isPySpace c = true)) →
      m.reverse.Chain'
        (fun a c => ¬(isPySpace a = true ∧ isPySpace c = true)) := by
    intro m hm
    rw [List.chain'_reverse]
    exact hm.imp (fun _ _ hab hc => hab ⟨hc.2, hc.1⟩)
  exact hrev _ (chain'_dropWhile _ _ (hrev _ (chain'_dropWhile _ _ h)))

/-- Stripping only removes characters. -/
theorem stripPy_mem (l : List Char) (c : Char) (hc : c ∈ stripPy l) :
    c ∈ l := by
  unfold stripPy at hc
  rw [List.mem_reverse] at hc
  have h1 := (List.dropWhile_sublist _).subset hc
  rw [List.mem_reverse] at h1
  exact (List.dropWhile_sublist _).subset h1

/-- The head of a stripped list is non-space. -/
theorem stripPy_head (l : List Char) :
    ∀ c, (stripPy l).head? = some c → isPySpace c = false := by
  intro c hc
  unfold stripPy at hc
  rw [List.head?_reverse] at hc
  have hne : ((l.dropWhile isPySpace).reverse.dropWhile isPySpace) ≠ [] := by
    intro hnil
    rw [hnil] at hc
    simp at hc
  rw [getLast?_dropWhile _ _ hne, List.getLast?_reverse] at hc
  exact head?_dropWhile_false _ _ _ hc

/-- The last character of a stripped list is non-space. -/
theorem stripPy_last (l : List Char) :
    ∀ c, (stripPy l).getLast? = some c → isPySpace c = false := by
  intro c hc
  unfold stripPy at hc
  rw [List.getLast?_reverse] at hc
  exact head?_dropWhile_false _ _ _ hc

/-- Whitespace normalization (collapse then strip) is idempotent. -/
theorem stripCollapse_idem (z : List Char) :
    stripPy (collapseWs (stripPy (collapseWs z))) = stripPy (collapseWs z) := by
  have hch : (collapseWs z).Chain'
      (fun a c => ¬(isPySpace a = true ∧ isPySpace c = true)) :=
    cwAux_chain z false
  have hych := stripPy_chain _ hch
  have hybl : ∀ c ∈ stripPy (collapseWs z), isPySpace c = true → c = ' ' :=
    fun c hc => cwAux_blank z false c (stripPy_mem _ c hc)
  have hcol : collapseWs (stripPy (collapseWs z)) = stripPy (collapseWs z) :=
    (cwAux_fix _ hych hybl (stripPy_last _)).1
  rw [show collapseWs (stripPy (collapseWs z)) =
      cwAux false (stripPy (collapseWs z)) from rfl] at hcol
  rw [show collapseWs (stripPy (collapseWs z)) =
      cwAux false (stripPy (collapseWs z)) from rfl]
  rw [hcol]
  exact stripPy_eq_self _ (stripPy_head _) (stripPy_last _)

/-- C3 amended: cleaning is idempotent on every input whose cleaned text is
left unchanged by the three deletion substitutions (URL, mention/hashtag,
RT); the final whitespace normalization is idempotent unconditionally.  In
general `clean_text` is not idempotent (see the counterexample). -/
theorem c3_clean_idempotent_on_stable (s : Word)
    (hU : subDel mURL (clean_text s) = clean_text s)
    (hM : subDel mMention (clean_text s) = clean_text s)
    (hR : subDel mRT (clean_text s) = clean_text s) :
    clean_text (clean_text s) = clean_text s := by
  show stripPy (collapseWs (subDel mRT (subDel mMention
    (subDel mURL (clean_text s))))) = clean_text s
  rw [hU, hM, hR]
  exact stripCollapse_idem (subDel mRT (subDel mMention (subDel mURL s)))

/-- C3 witness: the cleaned form of "これは 朝" is fixed by the three
substitutions, and cleaning it twice equals cleaning it once. -/
theorem c3_witness :
    subDel mURL (clean_text (str "これは 朝")) = clean_text (str "これは 朝") ∧
    subDel mMention (clean_text (str "これは 朝")) = clean_text (str "これは 朝") ∧
    subDel mRT (clean_text (str "これは 朝")) = clean_text (str "これは 朝") ∧
    clean_text (clean_text (str "これは 朝")) = clean_text (str "これは 朝") :=
  ⟨by decide, by decide, by decide,
    c3_clean_idempotent_on_stable (str "これは 朝") (by decide) (by decide)
      (by decide)⟩

/-- Concrete check of the aggregator: with ties at count 2, the word whose
first increment came first (a) is ranked before the other (b). -/
theorem most_common_concrete :
    most_common (runCtr [str "a", str "b", str "b", str "a", str "c"]) 3 =
      [(str "a", 2), (str "b", 2), (str "c", 1)] := by decide
